import Mathlib

/-!
Verification of the result-combining script of the soil-prediction repository
(file scripts/combine_results.py).

Modelling conventions, used throughout:
* Python strings are modelled as lists of Unicode code points (PyStr).
  The case functions implement Python's behaviour on the ASCII fragment,
  which covers every string the script manipulates.
* Python dicts are modelled as insertion-ordered association lists; dict
  iteration order is insertion order, as in Python 3.7+.
* Scores (Python floats) are modelled as rationals; a null (None) score is
  Option.none.  The script only compares, never does float arithmetic on,
  the scores it re-emits, so the rational model is order-faithful.
* Python sorted(..., key=k, reverse=True) is a stable descending sort; it is
  modelled by the extensionally equal stable insertion sort pySortDesc.
-/

/-- A Python string, as its list of Unicode code points. -/
abbrev PyStr : Type := List Nat

/-- Code-point list of a Lean string literal. -/
def strLit (s : String) : PyStr := s.toList.map Char.toNat

/-- A score: a rational number, or none for a Python null. -/
abbrev Score : Type := Option ℚ

/-- The inner dict of one property: method name to score, in insertion order. -/
abbrev MethodScores : Type := List (PyStr × Score)

/-- The outer dict: property name to its method scores, in insertion order. -/
abbrev ResultSet : Type := List (PyStr × MethodScores)

/-- Stable descending insertion, auxiliary to pySortDesc: x is placed behind
every element of strictly larger key and in front of the first element of
smaller-or-equal key, so equal-key elements that were earlier in the input
stay earlier. -/
def insertDesc (key : α → ℚ) (x : α) : List α → List α
  | [] => [x]
  | y :: ys => if key x < key y then y :: insertDesc key x ys else x :: y :: ys

/-- Stable sort by descending key, the model of Python
sorted(..., key=..., reverse=True). -/
def pySortDesc (key : α → ℚ) : List α → List α
  | [] => []
  | x :: xs => insertDesc key x (pySortDesc key xs)

/-- From add_suffix_to_methods: append a suffix to every method name of every
property; property names and scores are untouched. -/
def add_suffix_to_methods (data : ResultSet) (sfx : PyStr) : ResultSet :=
  data.map (fun pm => (pm.1, pm.2.map (fun mv => (mv.1 ++ sfx, mv.2))))

/-- Python dict.update on insertion-ordered association lists: keys of d keep
their position (with the value overridden when other also binds the key), and
keys of other that are new are appended in other's order. -/
def dictUpdate (d other : List (PyStr × α)) : List (PyStr × α) :=
  d.map (fun kv => (kv.1, (other.lookup kv.1).getD kv.2)) ++
    other.filter (fun kv => (d.lookup kv.1).isNone)

/-- From combine_results: union the property keys of both inputs and, per
property, overlay the suffixed derivatives entries on the fullrun entries.
Python iterates the union as a set, whose order is unspecified; the model
fixes the deduplicated concatenation order, and every claim about this
function is insensitive to that choice. -/
def combine_results (fullrun_data derivatives_data : ResultSet) : ResultSet :=
  let derivatives_suffixed := add_suffix_to_methods derivatives_data (strLit "_deriv")
  let all_properties := (fullrun_data.map Prod.fst ++ derivatives_suffixed.map Prod.fst).dedup
  all_properties.map (fun p =>
    (p, dictUpdate ((fullrun_data.lookup p).getD []) ((derivatives_suffixed.lookup p).getD [])))

/-- From the per-property body of sort_methods_by_r2: split the entries into
non-null and null scores, stably sort the non-null ones by descending score,
and append the null ones in their original order. -/
def sortOneProperty (methods : MethodScores) : MethodScores :=
  let valid_methods := methods.filter (fun kv => kv.2.isSome)
  let invalid_methods := methods.filter (fun kv => kv.2.isNone)
  pySortDesc (fun kv => kv.2.getD 0) valid_methods ++ invalid_methods

/-- From sort_methods_by_r2: rank every property's methods. -/
def sort_methods_by_r2 (data : ResultSet) : ResultSet :=
  data.map (fun pm => (pm.1, sortOneProperty pm.2))

/-- Method-score lookup through a result set; none when the property or the
method is absent (an absent property contributes an empty inner dict). -/
def mLookup (data : ResultSet) (p m : PyStr) : Option Score :=
  ((data.lookup p).getD []).lookup m

/-- Python chr.upper on the ASCII fragment, on code points. -/
def toUpperCp (c : Nat) : Nat := if 97 ≤ c ∧ c ≤ 122 then c - 32 else c

/-- Python chr.lower on the ASCII fragment, on code points. -/
def toLowerCp (c : Nat) : Nat := if 65 ≤ c ∧ c ≤ 90 then c + 32 else c

/-- Whether a code point is a cased character (ASCII letter). -/
def isCasedCp (c : Nat) : Bool := (65 ≤ c && c ≤ 90) || (97 ≤ c && c ≤ 122)

/-- Whether a code point is a lower-case letter (ASCII). -/
def isLowerCp (c : Nat) : Bool := 97 ≤ c && c ≤ 122

/-- Whitespace for Python str.split (ASCII fragment). -/
def isSpaceCp (c : Nat) : Bool := c == 32 || c == 9 || c == 10 || c == 11 || c == 12 || c == 13

/-- Python str.isupper: at least one cased character and no lower-case one. -/
def pyIsUpper (s : PyStr) : Bool := s.any isCasedCp && s.all (fun c => !(isLowerCp c))

/-- Python str.capitalize: first character upper-cased, the rest lower-cased. -/
def pyCapitalize : PyStr → PyStr
  | [] => []
  | c :: cs => toUpperCp c :: cs.map toLowerCp

/-- Helper of pySplit, carrying the reversed current word. -/
def pySplitAux : List Nat → List Nat → List PyStr
  | [], acc => if acc.isEmpty then [] else [acc.reverse]
  | c :: cs, acc =>
    if isSpaceCp c then
      if acc.isEmpty then pySplitAux cs [] else acc.reverse :: pySplitAux cs []
    else pySplitAux cs (c :: acc)

/-- Python str.split with no separator: split on runs of whitespace, no empty
words. -/
def pySplit (s : PyStr) : List PyStr := pySplitAux s []

/-- Python chr-sep join for a single-space separator. -/
def joinSp : List PyStr → PyStr
  | [] => []
  | [w] => w
  | w :: ws => w ++ 32 :: joinSp ws

/-- Helper of pyReplace: replace every non-overlapping occurrence of
old = c :: cs, scanning left to right.  The fuel argument (instantiated with
the length of the text, an upper bound on the number of steps) keeps the
recursion structural so that terms reduce definitionally. -/
def replaceFuel (c : Nat) (cs new : List Nat) : Nat → List Nat → List Nat
  | 0, l => l
  | _ + 1, [] => []
  | fuel + 1, x :: xs =>
    if (c :: cs).isPrefixOf (x :: xs) then new ++ replaceFuel c cs new fuel (xs.drop cs.length)
    else x :: replaceFuel c cs new fuel xs

/-- Python str.replace: replace every non-overlapping occurrence of old by
new, scanning left to right.  The script never calls it with an empty old
string; that unreachable case returns the text unchanged. -/
def pyReplace (old new s : List Nat) : List Nat :=
  match old with
  | [] => s
  | c :: cs => replaceFuel c cs new s.length s

/-- The fixed dictionary of phrase renames of clean_method_name_for_latex, in
source order. -/
def replacementPairs : List (PyStr × PyStr) :=
  [(strLit "Enhanced Neural Network", strLit "Enhanced NN"),
   (strLit "Enhanced PLS", strLit "Enhanced PLS"),
   (strLit "Random Forest", strLit "Random Forest"),
   (strLit "MLPRegressor", strLit "MLP Regressor"),
   (strLit "XGBRegressor", strLit "XGBoost"),
   (strLit "LGBMRegressor", strLit "LightGBM"),
   (strLit "ExtraTreesRegressor", strLit "Extra Trees"),
   (strLit "HistGradientBoostingRegressor", strLit "Hist Gradient Boosting"),
   (strLit "GradientBoostingRegressor", strLit "Gradient Boosting"),
   (strLit "KNeighborsRegressor", strLit "K-Neighbors"),
   (strLit "BaggingRegressor", strLit "Bagging"),
   (strLit "AdaBoostRegressor", strLit "AdaBoost"),
   (strLit "LinearRegression", strLit "Linear Regression"),
   (strLit "BayesianRidge", strLit "Bayesian Ridge"),
   (strLit "RidgeCV", strLit "Ridge CV"),
   (strLit "LassoCV", strLit "Lasso CV"),
   (strLit "ElasticNetCV", strLit "ElasticNet CV"),
   (strLit "TransformedTargetRegressor", strLit "Transformed Target"),
   (strLit "OrthogonalMatchingPursuitCV", strLit "OMP CV"),
   (strLit "PCA", strLit "PCA"),
   (strLit "noScale", strLit "No Scaling"),
   (strLit "StndScale", strLit "Standard Scaling")]

/-- Apply the phrase renames in order; later replacements act on the result of
earlier ones, as in the source loop. -/
def applyReplacements (s : PyStr) : PyStr :=
  replacementPairs.foldl (fun acc p => pyReplace p.1 p.2 acc) s

/-- The derivative tag appended by the tagging step. -/
def derivSfx : PyStr := strLit "_deriv"

/-- The per-word step of the final capitalization pass of
clean_method_name_for_latex. -/
def capWord (w : PyStr) : PyStr := if pyIsUpper w then w else pyCapitalize w

/-- From clean_method_name_for_latex: strip the derivative tag (remembering
it), replace underscores by spaces, apply the phrase renames, append the
derivative marker when the tag was present, then capitalize each word that is
not fully upper-case, joining with single spaces. -/
def clean_method_name_for_latex (method_name : PyStr) : PyStr :=
  let is_derivative := derivSfx.isSuffixOf method_name
  let c1 := if is_derivative then pyReplace derivSfx [] method_name else method_name
  let c2 := pyReplace [95] [32] c1
  let c3 := applyReplacements c2
  let c4 := if is_derivative then c3 ++ strLit " (Deriv)" else c3
  joinSp ((pySplit c4).map capWord)

/-- Helper of pyTitle, tracking whether the previous character was cased. -/
def pyTitleAux : Bool → List Nat → List Nat
  | _, [] => []
  | prevCased, c :: cs =>
    if isCasedCp c then
      (if prevCased then toLowerCp c else toUpperCp c) :: pyTitleAux true cs
    else c :: pyTitleAux false cs

/-- Python str.title on the ASCII fragment: first letter of every alphabetic
run upper-cased, the rest lower-cased. -/
def pyTitle (s : PyStr) : PyStr := pyTitleAux false s

/-- The plausible floor constant used by the reporting logic. -/
def floorR2 : ℚ := -1000

/-- The shared filter of both table generators: entries whose score is
non-null and strictly above the floor. -/
def validAboveFloor (ms : MethodScores) : List (PyStr × ℚ) :=
  ms.filterMap (fun kv => match kv.2 with
    | some v => if floorR2 < v then some (kv.1, v) else none
    | none => none)

/-- Python max with a key over a nonempty sequence, split as head and tail:
the first element of maximal key wins, since a later element replaces the
current best only on a strictly larger key. -/
def pyMaxBy (key : α → ℚ) : α → List α → α
  | best, [] => best
  | best, x :: xs => if key best < key x then pyMaxBy key x xs else pyMaxBy key best xs

/-- The 8 fixed soil constituents of the summary table, in source order. -/
def target_constituents : List PyStr :=
  [strLit "Clay_Content", strLit "pH", strLit "Organic_Carbon", strLit "Organic_Nitrogen",
   strLit "Potassium", strLit "Magnesium", strLit "Calcium", strLit "Sodium"]

/-- Placeholder text for a constituent with no entry above the floor. -/
def noValidTxt : PyStr := strLit "No valid results"

/-- Placeholder text for a constituent absent from the data. -/
def notAvailTxt : PyStr := strLit "Not available"

/-- The row create_best_methods_summary_table builds for one constituent
before the final sort: the best valid entry, or a placeholder with the 0.000
numeric sentinel. -/
def bestRowFor (data : ResultSet) (constituent : PyStr) : PyStr × PyStr × ℚ :=
  match data.lookup constituent with
  | some ms =>
    match validAboveFloor ms with
    | v :: vs => ((constituent, (pyMaxBy Prod.snd v vs).1, (pyMaxBy Prod.snd v vs).2))
    | [] => (constituent, noValidTxt, 0)
  | none => (constituent, notAvailTxt, 0)

/-- The 8 summary rows after the final stable descending sort by the stored
score (placeholder rows carry the 0.000 sentinel and sort by it). -/
def summaryRowsSorted (data : ResultSet) : List (PyStr × PyStr × ℚ) :=
  pySortDesc (fun r => r.2.2) (target_constituents.map (bestRowFor data))

/-- A rendered score cell: the em dash marker, or a numeric score (printed to
3 decimals by the script; the decimal rendering itself is elided). -/
inductive ScoreCell where
  | emDash : ScoreCell
  | val : ℚ → ScoreCell
deriving DecidableEq

/-- Rendering of one summary row: title-cased property label, method label
(cleaned unless it is placeholder text), and the score cell, which is the em
dash exactly when the score is 0.000 and the method text is a placeholder. -/
def renderSummaryRow (row : PyStr × PyStr × ℚ) : PyStr × PyStr × ScoreCell :=
  (pyTitle (pyReplace [95] [32] row.1),
   if row.2.1 = noValidTxt ∨ row.2.1 = notAvailTxt then row.2.1
   else clean_method_name_for_latex row.2.1,
   if row.2.2 = 0 ∧ (row.2.1 = noValidTxt ∨ row.2.1 = notAvailTxt) then ScoreCell.emDash
   else ScoreCell.val row.2.2)

/-- From create_best_methods_summary_table: the 8 rendered data rows of the
summary table (the constant LaTeX framing lines are elided). -/
def create_best_methods_summary_table (data : ResultSet) : List (PyStr × PyStr × ScoreCell) :=
  (summaryRowsSorted data).map renderSummaryRow

/-- A detailed per-property table: either the comment-only placeholder for a
property with no qualifying entries, or the data rows of one table. -/
inductive DetailedTable where
  | placeholderTable : PyStr → DetailedTable
  | fullTable : PyStr → List (PyStr × ℚ) → DetailedTable
deriving DecidableEq

/-- The property a detailed table or placeholder is about. -/
def tablePropertyName : DetailedTable → PyStr
  | .placeholderTable p => p
  | .fullTable p _ => p

/-- From create_latex_table: keep the non-null entries strictly above the
floor, sort by descending score, truncate to the top_n best, and emit a
comment-only placeholder when nothing is left; rows carry the cleaned method
label and the score (3-decimal rendering elided). -/
def create_latex_table (property_name : PyStr) (methods_data : MethodScores)
    (top_n : Nat) : DetailedTable :=
  let valid_methods := (pySortDesc Prod.snd (validAboveFloor methods_data)).take top_n
  if valid_methods.isEmpty then .placeholderTable property_name
  else .fullTable property_name
    (valid_methods.map (fun mv => (clean_method_name_for_latex mv.1, mv.2)))

/-- From generate_all_latex_tables: a property's sort key, its best valid
score, or the minus 999 sentinel when it has none. -/
def bestValidR2 (ms : MethodScores) : ℚ :=
  match (validAboveFloor ms).map Prod.snd with
  | [] => -999
  | v :: vs => vs.foldl max v

/-- The property performance pairs, in data order. -/
def property_performance (data : ResultSet) : List (PyStr × ℚ) :=
  data.map (fun pm => (pm.1, bestValidR2 pm.2))

/-- The properties sorted by descending performance, the order in which the
detailed tables are emitted. -/
def sortedProperties (data : ResultSet) : List (PyStr × ℚ) :=
  pySortDesc Prod.snd (property_performance data)

/-- From generate_all_latex_tables: the summary table followed by one
detailed table per property in descending performance order (header comment
lines elided). -/
def generate_all_latex_tables (data : ResultSet) :
    List (PyStr × PyStr × ScoreCell) × List DetailedTable :=
  (create_best_methods_summary_table data,
   (sortedProperties data).map
     (fun pb => create_latex_table pb.1 ((data.lookup pb.1).getD []) 10))

/-- A JSON value, the possible result of Python json.load. -/
inductive Json where
  | null : Json
  | bool : Bool → Json
  | num : ℚ → Json
  | str : PyStr → Json
  | arr : List Json → Json
  | obj : List (PyStr × Json) → Json

/-- Whether a JSON value is a score leaf: a number or null. -/
def isScoreJson : Json → Bool
  | .null => true
  | .num _ => true
  | _ => false

/-- Whether a JSON value is a method-to-score mapping. -/
def isMethodMapJson : Json → Bool
  | .obj mvs => mvs.all (fun mv => isScoreJson mv.2)
  | _ => false

/-- Whether a JSON value has the expected two-level
property-method-score shape of a ResultSet. -/
def isResultSetJson : Json → Bool
  | .obj pms => pms.all (fun pm => isMethodMapJson pm.2)
  | _ => false

/-- What happened when a source file was opened and parsed: the file was
absent, unreadable, undecodable as JSON, or parsed to a JSON value. -/
inductive LoadOutcome where
  | missing : LoadOutcome
  | unreadable : LoadOutcome
  | badJson : LoadOutcome
  | parsed : Json → LoadOutcome

/-- From load_json_file: an empty dict for a missing file and for either
handled exception, and the parsed value, whatever its shape, otherwise.  It
is a total function: every failure of the source is caught. -/
def load_json_file : LoadOutcome → Json
  | .missing => .obj []
  | .unreadable => .obj []
  | .badJson => .obj []
  | .parsed v => v

/-- Python truthiness of a JSON value, used by the guard in main. -/
def pyFalsy : Json → Bool
  | .null => true
  | .bool b => !b
  | .num q => decide (q = 0)
  | .str s => s.isEmpty
  | .arr l => l.isEmpty
  | .obj l => l.isEmpty

/-- A score leaf read back into the model, none when the leaf has a shape on
which the script would crash. -/
def toScore : Json → Option Score
  | .null => some none
  | .num q => some (some q)
  | _ => none

/-- A method map read back into the model. -/
def toMethodScores : Json → Option MethodScores
  | .obj mvs => mvs.mapM (fun mv => (toScore mv.2).map (fun s => (mv.1, s)))
  | _ => none

/-- A result set read back into the model. -/
def toResultSet : Json → Option ResultSet
  | .obj pms => pms.mapM (fun pm => (toMethodScores pm.2).map (fun ms => (pm.1, ms)))
  | _ => none

/-- How a run of main ends: the explicit early halt with its error message
and no artifacts written, an unhandled crash on data of the wrong shape, or
completion with the combined snapshot and the table file contents. -/
inductive MainOutcome where
  | haltedNoData : PyStr → MainOutcome
  | crashed : MainOutcome
  | completed : ResultSet → List (PyStr × PyStr × ScoreCell) × List DetailedTable → MainOutcome

/-- From main: load both sources, halt with the error message when both are
falsy, otherwise combine, sort, and derive both output artifacts. -/
def mainRun (fullrun_src derivatives_src : LoadOutcome) : MainOutcome :=
  let fullrun_data := load_json_file fullrun_src
  let derivatives_data := load_json_file derivatives_src
  if pyFalsy fullrun_data && pyFalsy derivatives_data then
    .haltedNoData (strLit "ERROR: No data loaded from either file. Exiting.")
  else
    match toResultSet fullrun_data, toResultSet derivatives_data with
    | some f, some d =>
      let sorted_data := sort_methods_by_r2 (combine_results f d)
      .completed sorted_data (generate_all_latex_tables sorted_data)
    | _, _ => .crashed

/-- From generate_summary_report: the entry printed as best method of a
property, Python max over the items with null scores keyed as minus 1; none
when the property has no methods at all.  Printing its score with a 4-decimal
format succeeds exactly when the selected score is non-null. -/
def bestMethodReported (methods : MethodScores) : Option (PyStr × Score) :=
  match methods with
  | [] => none
  | x :: xs => some (pyMaxBy (fun kv => kv.2.getD (-1)) x xs)

/-- The scores column of a detailed table; empty for the placeholder. -/
def tableScores : DetailedTable → List ℚ
  | .placeholderTable _ => []
  | .fullTable _ rows => rows.map Prod.snd

/-- The worked scenario of the spec: one property with two scored methods
and one null-scored method. -/
def exMs : MethodScores :=
  [(strLit "RF", some (mkRat 91 100)), (strLit "SVR", none),
   (strLit "RF_deriv", some (mkRat 80 100))]

/-- The worked scenario as a one-property result set. -/
def exData : ResultSet := [(strLit "pH", exMs)]

/-- Input exercising both placeholder branches of the summary table: the
target constituent pH is present with only a null score, the other seven are
absent. -/
def exC4Data : ResultSet := [(strLit "pH", [(strLit "m", none)])]

/-- Input refuting the unconditional form of the detailed-table ordering
claim: property A has best valid score minus 999.5, strictly between the
floor and the sentinel, while property B has no valid score at all. -/
def exC5Data : ResultSet :=
  [(strLit "A", [(strLit "m1", some (mkRat (-1999) 2))]),
   (strLit "B", [(strLit "m2", none)])]

/-! ### Generic lemmas about the stable descending sort -/

/-- Inserting permutes the element onto the list. -/
theorem insertDesc_perm (key : α → ℚ) (x : α) (l : List α) :
    List.Perm (insertDesc key x l) (x :: l) := by
  induction l with
  | nil => exact List.Perm.refl _
  | cons y ys ih =>
    simp only [insertDesc]
    split
    · exact (ih.cons y).trans (List.Perm.swap x y ys)
    · exact List.Perm.refl _

/-- The stable sort permutes its input. -/
theorem pySortDesc_perm (key : α → ℚ) (l : List α) :
    List.Perm (pySortDesc key l) l := by
  induction l with
  | nil => exact List.Perm.refl _
  | cons x xs ih => exact (insertDesc_perm key x (pySortDesc key xs)).trans (ih.cons x)

/-- Inserting into a descending list yields a descending list. -/
theorem insertDesc_pairwise (key : α → ℚ) (x : α) {l : List α}
    (h : l.Pairwise (fun a b => key b ≤ key a)) :
    (insertDesc key x l).Pairwise (fun a b => key b ≤ key a) := by
  induction l with
  | nil => simp [insertDesc]
  | cons y ys ih =>
    rw [List.pairwise_cons] at h
    simp only [insertDesc]
    split
    · rename_i hlt
      rw [List.pairwise_cons]
      refine ⟨?_, ih h.2⟩
      intro a ha
      rcases List.mem_cons.mp ((insertDesc_perm key x ys).mem_iff.mp ha) with rfl | h1
      · exact le_of_lt hlt
      · exact h.1 a h1
    · rename_i hge
      rw [List.pairwise_cons]
      refine ⟨?_, List.pairwise_cons.mpr h⟩
      intro a ha
      rcases List.mem_cons.mp ha with rfl | h1
      · exact le_of_not_lt hge
      · exact le_trans (h.1 a h1) (le_of_not_lt hge)

/-- The stable sort produces a list descending in the key. -/
theorem pySortDesc_pairwise (key : α → ℚ) (l : List α) :
    (pySortDesc key l).Pairwise (fun a b => key b ≤ key a) := by
  induction l with
  | nil => simp [pySortDesc]
  | cons x xs ih => exact insertDesc_pairwise key x ih

/-- Elements failing a predicate are invisible to a filter through insertion. -/
theorem insertDesc_filter_neg (key : α → ℚ) (q : α → Bool) (x : α) (hx : ¬ q x = true)
    (l : List α) : (insertDesc key x l).filter q = l.filter q := by
  induction l with
  | nil => simp [insertDesc, hx]
  | cons y ys ih =>
    simp only [insertDesc]
    split
    · rw [List.filter_cons, List.filter_cons, ih]
    · simp [List.filter_cons, hx]

/-- Inserting an element that ties with every other element the filter keeps
puts it exactly at the front of the filtered list: the skipped elements all
have strictly larger keys, so none of them is kept. -/
theorem insertDesc_filter_pos (key : α → ℚ) (q : α → Bool) (x : α) (hx : q x = true)
    (l : List α) (hkey : ∀ a ∈ l, q a = true → key a = key x) :
    (insertDesc key x l).filter q = x :: l.filter q := by
  induction l with
  | nil => simp [insertDesc, List.filter_cons, hx]
  | cons y ys ih =>
    simp only [insertDesc]
    split
    · rename_i hlt
      have hqy : ¬ q y = true := by
        intro hq
        rw [hkey y (List.mem_cons_self y ys) hq] at hlt
        exact lt_irrefl _ hlt
      rw [List.filter_cons_of_neg hqy,
        ih (fun a ha hqa => hkey a (List.mem_cons_of_mem y ha) hqa),
        List.filter_cons_of_neg hqy]
    · rw [List.filter_cons_of_pos hx]

/-- Stability of the sort: a filter keeping only elements of one key value
commutes with the sort, so tied elements keep their relative input order. -/
theorem pySortDesc_filter_tie (key : α → ℚ) (q : α → Bool)
    (hq : ∀ a b, q a = true → q b = true → key a = key b)
    (l : List α) : (pySortDesc key l).filter q = l.filter q := by
  induction l with
  | nil => rfl
  | cons x xs ih =>
    simp only [pySortDesc]
    by_cases hx : q x = true
    · rw [insertDesc_filter_pos key q x hx _ (fun a _ hqa => hq a x hqa hx), ih,
        List.filter_cons_of_pos hx]
    · rw [insertDesc_filter_neg key q x hx, ih, List.filter_cons_of_neg hx]

/-! ### Generic lemmas about association-list lookup -/

/-- Lookup through a map that rewrites values but keeps keys. -/
theorem lookup_map_pair (f : PyStr → β → γ) (l : List (PyStr × β)) (k : PyStr) :
    (l.map (fun kv => (kv.1, f kv.1 kv.2))).lookup k = (l.lookup k).map (f k) := by
  induction l with
  | nil => rfl
  | cons kv rest ih =>
    obtain ⟨a, b⟩ := kv
    cases hka : k == a
    · simp only [List.map_cons, List.lookup_cons, hka, ih]
    · have : k = a := eq_of_beq hka
      subst this
      simp only [List.map_cons, List.lookup_cons, hka, Option.map_some']

/-- Lookup through the new-keys filter of dictUpdate. -/
theorem lookup_filter_isNone (d other : List (PyStr × α)) (k : PyStr) :
    (other.filter (fun kv => (d.lookup kv.1).isNone)).lookup k =
      if (d.lookup k).isNone then other.lookup k else none := by
  induction other with
  | nil => simp
  | cons kv rest ih =>
    obtain ⟨a, b⟩ := kv
    by_cases hd : (d.lookup a).isNone
    · rw [List.filter_cons_of_pos (by simpa using hd)]
      cases hka : k == a
      · simp only [List.lookup_cons, hka, ih]
      · have : k = a := eq_of_beq hka
        subst this
        simp [List.lookup_cons, hka, hd]
    · rw [List.filter_cons_of_neg (by simpa using hd), ih]
      cases hka : k == a
      · simp only [List.lookup_cons, hka]
      · have : k = a := eq_of_beq hka
        subst this
        simp [List.lookup_cons, hka, hd]

/-- Lookup through a Python dict update: the other dict wins on collisions. -/
theorem lookup_dictUpdate (d other : List (PyStr × α)) (k : PyStr) :
    (dictUpdate d other).lookup k = (other.lookup k).or (d.lookup k) := by
  unfold dictUpdate
  rw [List.lookup_append, lookup_map_pair (fun a b => (other.lookup a).getD b),
    lookup_filter_isNone]
  cases hd : d.lookup k with
  | none => simp
  | some v =>
    cases ho : other.lookup k with
    | none => simp
    | some w => simp

/-- Lookup through a list of pairs built from a key list. -/
theorem lookup_map_key_fn (g : PyStr → β) (ks : List PyStr) (k : PyStr) :
    (ks.map (fun p => (p, g p))).lookup k = if k ∈ ks then some (g k) else none := by
  induction ks with
  | nil => simp
  | cons a rest ih =>
    cases hka : k == a
    · have hne : k ≠ a := by
        intro h
        subst h
        simp at hka
      simp [List.lookup_cons, hka, ih, List.mem_cons, hne]
    · have : k = a := eq_of_beq hka
      subst this
      simp [List.lookup_cons, hka]

/-! ### Claim C1: the Ranker is a stable partition-and-sort -/

/-- Claim C1: for every combined result set and property in it, the ranked
method scores are a permutation of that property's entries in which every
non-null entry precedes every null entry, the non-null scores are
non-increasing, tied non-null entries keep their input order, and null
entries keep their input order. -/
theorem claim_C1_ranker_partition_sort (data : ResultSet) (p : PyStr) (ms : MethodScores)
    (h : data.lookup p = some ms) :
    (sort_methods_by_r2 data).lookup p = some (sortOneProperty ms) ∧
    List.Perm (sortOneProperty ms) ms ∧
    (sortOneProperty ms).Pairwise (fun a b => a.2 = none → b.2 = none) ∧
    (sortOneProperty ms).Pairwise
      (fun a b => ∀ x y : ℚ, a.2 = some x → b.2 = some y → y ≤ x) ∧
    (∀ s : ℚ, (sortOneProperty ms).filter (fun e => decide (e.2 = some s)) =
      ms.filter (fun e => decide (e.2 = some s))) ∧
    (sortOneProperty ms).filter (fun e => e.2.isNone) = ms.filter (fun e => e.2.isNone) := by
  refine ⟨?_, ?_, ?_, ?_, ?_, ?_⟩
  · unfold sort_methods_by_r2
    rw [lookup_map_pair (fun _ b => sortOneProperty b), h]
    rfl
  · unfold sortOneProperty
    refine List.Perm.trans
      (List.Perm.append_right _ (pySortDesc_perm (fun kv : PyStr × Score => kv.2.getD 0) _)) ?_
    refine List.Perm.trans (List.Perm.of_eq ?_)
      (List.filter_append_perm (fun kv => kv.2.isSome) ms)
    congr 1
    apply List.filter_congr
    intro x _
    cases hx : x.2 <;> simp [hx]
  · unfold sortOneProperty
    rw [List.pairwise_append]
    refine ⟨?_, ?_, ?_⟩
    · apply List.pairwise_of_forall_mem_list
      intro a ha b _ hnone
      exfalso
      have ha2 := (List.mem_filter.mp
        ((pySortDesc_perm (fun kv : PyStr × Score => kv.2.getD 0) _).mem_iff.mp ha)).2
      rw [hnone] at ha2
      simp at ha2
    · apply List.pairwise_of_forall_mem_list
      intro a _ b hb _
      have hb2 := (List.mem_filter.mp hb).2
      simpa using hb2
    · intro a ha b hb hnone
      exfalso
      have ha2 := (List.mem_filter.mp
        ((pySortDesc_perm (fun kv : PyStr × Score => kv.2.getD 0) _).mem_iff.mp ha)).2
      rw [hnone] at ha2
      simp at ha2
  · unfold sortOneProperty
    rw [List.pairwise_append]
    refine ⟨?_, ?_, ?_⟩
    · refine (pySortDesc_pairwise (fun kv : PyStr × Score => kv.2.getD 0) _).imp ?_
      intro a b hle x y hax hby
      simp only [hax, hby, Option.getD_some] at hle
      exact hle
    · apply List.pairwise_of_forall_mem_list
      intro a _ b hb x y hax hby
      exfalso
      have hb2 := (List.mem_filter.mp hb).2
      rw [hby] at hb2
      simp at hb2
    · intro a ha b hb x y hax hby
      exfalso
      have hb2 := (List.mem_filter.mp hb).2
      rw [hby] at hb2
      simp at hb2
  · intro s
    unfold sortOneProperty
    rw [List.filter_append]
    have hzero : (ms.filter (fun kv => kv.2.isNone)).filter
        (fun e => decide (e.2 = some s)) = [] := by
      rw [List.filter_eq_nil_iff]
      intro a ha
      have ha2 := (List.mem_filter.mp ha).2
      simp only [Option.isNone_iff_eq_none] at ha2
      simp [ha2]
    rw [hzero, List.append_nil]
    rw [pySortDesc_filter_tie (fun kv : PyStr × Score => kv.2.getD 0) (fun e => decide (e.2 = some s))
      (fun a b hqa hqb => by
        simp only [decide_eq_true_eq] at hqa hqb
        simp [hqa, hqb])]
    rw [List.filter_filter]
    apply List.filter_congr
    intro x _
    cases hx : x.2 <;> simp [hx]
  · unfold sortOneProperty
    rw [List.filter_append]
    have hnil : (pySortDesc (fun kv => kv.2.getD 0)
        (ms.filter (fun kv => kv.2.isSome))).filter (fun e => e.2.isNone) = [] := by
      rw [List.filter_eq_nil_iff]
      intro a ha
      have ha2 := (List.mem_filter.mp
        ((pySortDesc_perm (fun kv : PyStr × Score => kv.2.getD 0) _).mem_iff.mp ha)).2
      cases hx : a.2
      · simp [hx] at ha2
      · simp [hx]
    rw [hnil, List.nil_append]
    rw [List.filter_filter]
    apply List.filter_congr
    intro x _
    cases hx : x.2 <;> simp [hx]

/-- Witness for C1: the worked pH scenario of the spec. -/
theorem claim_C1_ranker_partition_sort_witness :
    exData.lookup (strLit "pH") = some exMs ∧
    ((sort_methods_by_r2 exData).lookup (strLit "pH") = some (sortOneProperty exMs) ∧
    List.Perm (sortOneProperty exMs) exMs ∧
    (sortOneProperty exMs).Pairwise (fun a b => a.2 = none → b.2 = none) ∧
    (sortOneProperty exMs).Pairwise
      (fun a b => ∀ x y : ℚ, a.2 = some x → b.2 = some y → y ≤ x) ∧
    (∀ s : ℚ, (sortOneProperty exMs).filter (fun e => decide (e.2 = some s)) =
      exMs.filter (fun e => decide (e.2 = some s))) ∧
    (sortOneProperty exMs).filter (fun e => e.2.isNone) = exMs.filter (fun e => e.2.isNone)) :=
  ⟨by decide, claim_C1_ranker_partition_sort exData (strLit "pH") exMs (by decide)⟩

/-! ### Claim C2: the Merger unions properties and overlays methods -/

/-- Claim C2: the combined result's property key set is the union of the two
inputs' property key sets, and per property the combined entries are the
primary entries overlaid with the tagged secondary entries, a method present
in both taking the secondary score. -/
theorem claim_C2_merger_union_overlay (f d : ResultSet) :
    (∀ p : PyStr, ((combine_results f d).lookup p).isSome =
      ((f.lookup p).isSome || (d.lookup p).isSome)) ∧
    (∀ p m : PyStr, mLookup (combine_results f d) p m =
      (mLookup (add_suffix_to_methods d (strLit "_deriv")) p m).or (mLookup f p m)) := by
  have hkeys : (add_suffix_to_methods d (strLit "_deriv")).map Prod.fst = d.map Prod.fst := by
    unfold add_suffix_to_methods
    rw [List.map_map]
    rfl
  have hc : ∀ p : PyStr, (combine_results f d).lookup p =
      if p ∈ (f.map Prod.fst ++ (add_suffix_to_methods d (strLit "_deriv")).map Prod.fst).dedup
      then some (dictUpdate ((f.lookup p).getD [])
        (((add_suffix_to_methods d (strLit "_deriv")).lookup p).getD []))
      else none := by
    intro p
    unfold combine_results
    rw [lookup_map_key_fn]
  have hmem : ∀ (l : List (PyStr × MethodScores)) (p : PyStr),
      (l.lookup p).isSome = true ↔ p ∈ l.map Prod.fst := by
    intro l p
    rw [List.lookup_isSome_iff]
    constructor
    · rintro ⟨q, hq, hqp⟩
      have : p = q.1 := eq_of_beq hqp
      subst this
      exact List.mem_map_of_mem Prod.fst hq
    · intro hp
      rcases List.mem_map.mp hp with ⟨q, hq, hqp⟩
      exact ⟨q, hq, by simp [hqp]⟩
  constructor
  · intro p
    rw [hc p]
    by_cases hp : p ∈ (f.map Prod.fst ++
        (add_suffix_to_methods d (strLit "_deriv")).map Prod.fst).dedup
    · rw [if_pos hp, Option.isSome_some]
      rw [List.mem_dedup, List.mem_append, hkeys] at hp
      rcases hp with hp | hp
      · have : (f.lookup p).isSome = true := (hmem f p).mpr hp
        rw [this, Bool.true_or]
      · have : (d.lookup p).isSome = true := (hmem d p).mpr hp
        rw [this, Bool.or_true]
    · rw [if_neg hp, Option.isSome_none]
      rw [List.mem_dedup, List.mem_append, hkeys] at hp
      push_neg at hp
      have h1 : (f.lookup p).isSome = false := by
        rw [← Bool.not_eq_true]
        intro hf
        exact hp.1 ((hmem f p).mp hf)
      have h2 : (d.lookup p).isSome = false := by
        rw [← Bool.not_eq_true]
        intro hd
        exact hp.2 ((hmem d p).mp hd)
      rw [h1, h2]
      rfl
  · intro p m
    unfold mLookup
    rw [hc p]
    by_cases hp : p ∈ (f.map Prod.fst ++
        (add_suffix_to_methods d (strLit "_deriv")).map Prod.fst).dedup
    · rw [if_pos hp, Option.getD_some, lookup_dictUpdate]
    · rw [if_neg hp]
      rw [List.mem_dedup, List.mem_append, hkeys] at hp
      push_neg at hp
      have h1 : f.lookup p = none := by
        cases hf : f.lookup p with
        | none => rfl
        | some v =>
          exact absurd ((hmem f p).mp (by rw [hf]; rfl)) hp.1
      have h2 : (add_suffix_to_methods d (strLit "_deriv")).lookup p = none := by
        cases hd : (add_suffix_to_methods d (strLit "_deriv")).lookup p with
        | none => rfl
        | some v =>
          have : p ∈ (add_suffix_to_methods d (strLit "_deriv")).map Prod.fst :=
            (hmem _ p).mp (by rw [hd]; rfl)
          rw [hkeys] at this
          exact absurd this hp.2
      rw [h1, h2]
      rfl

/-! ### Claim C3: the Tagger rewrites method names only -/

/-- Claim C3: tagging keeps the property names, maps every inner entry to the
same score under the suffixed name, and every tagged method name ends with
the suffix.  The operation is a pure function of its argument, so it cannot
alter any other result set. -/
theorem claim_C3_tagger_suffixes (data : ResultSet) (sfx : PyStr) :
    ((add_suffix_to_methods data sfx).map Prod.fst = data.map Prod.fst) ∧
    (∀ p : PyStr, (add_suffix_to_methods data sfx).lookup p =
      (data.lookup p).map (fun ms => ms.map (fun mv => (mv.1 ++ sfx, mv.2)))) ∧
    ((add_suffix_to_methods data sfx).all
      (fun pm => pm.2.all (fun mv => sfx.isSuffixOf mv.1)) = true) := by
  refine ⟨?_, ?_, ?_⟩
  · unfold add_suffix_to_methods
    rw [List.map_map]
    rfl
  · intro p
    unfold add_suffix_to_methods
    exact lookup_map_pair
      (fun _ (ms : MethodScores) => ms.map (fun mv => (mv.1 ++ sfx, mv.2))) data p
  · rw [List.all_eq_true]
    intro pm hpm
    rw [List.all_eq_true]
    intro mv hmv
    unfold add_suffix_to_methods at hpm
    rcases List.mem_map.mp hpm with ⟨pm0, _, rfl⟩
    rcases List.mem_map.mp hmv with ⟨mv0, _, rfl⟩
    exact List.isSuffixOf_iff_suffix.mpr (List.suffix_append mv0.1 sfx)

/-! ### Helpers for maxima -/

/-- Python max with a key never returns an element outside its input. -/
theorem pyMaxBy_mem (key : α → ℚ) (x : α) (xs : List α) :
    pyMaxBy key x xs ∈ x :: xs := by
  induction xs generalizing x with
  | nil => simp [pyMaxBy]
  | cons y ys ih =>
    simp only [pyMaxBy]
    split
    · exact List.mem_cons_of_mem x (ih y)
    · rcases List.mem_cons.mp (ih x) with h | h
      · exact List.mem_cons.mpr (Or.inl h)
      · exact List.mem_cons_of_mem x (List.mem_cons_of_mem y h)

/-- Python max with a key dominates every element of its input. -/
theorem pyMaxBy_ge (key : α → ℚ) (x : α) (xs : List α) :
    ∀ a ∈ x :: xs, key a ≤ key (pyMaxBy key x xs) := by
  induction xs generalizing x with
  | nil =>
    intro a ha
    rcases List.mem_cons.mp ha with rfl | h
    · simp [pyMaxBy]
    · simp at h
  | cons y ys ih =>
    intro a ha
    simp only [pyMaxBy]
    split
    · rename_i hlt
      rcases List.mem_cons.mp ha with rfl | h
      · exact le_trans (le_of_lt hlt) (ih y y (List.mem_cons_self y ys))
      · exact ih y a h
    · rename_i hge
      rcases List.mem_cons.mp ha with rfl | h
      · exact ih a a (List.mem_cons_self a ys)
      · rcases List.mem_cons.mp h with rfl | h2
        · exact le_trans (le_of_not_lt hge) (ih x x (List.mem_cons_self x ys))
        · exact ih x a (List.mem_cons_of_mem x h2)

/-- A max fold dominates its seed. -/
theorem le_foldl_max (vs : List ℚ) : ∀ v : ℚ, v ≤ vs.foldl max v := by
  induction vs with
  | nil => intro v; exact le_refl v
  | cons w ws ih => intro v; exact le_trans (le_max_left v w) (ih (max v w))

/-- A max fold dominates the seed and every folded element. -/
theorem foldl_max_ge (vs : List ℚ) : ∀ v : ℚ, ∀ a ∈ v :: vs, a ≤ vs.foldl max v := by
  induction vs with
  | nil =>
    intro v a ha
    rcases List.mem_cons.mp ha with rfl | h
    · exact le_refl _
    · simp at h
  | cons w ws ih =>
    intro v a ha
    simp only [List.foldl_cons]
    rcases List.mem_cons.mp ha with rfl | h
    · exact le_trans (le_max_left a w) (le_foldl_max ws (max a w))
    · rcases List.mem_cons.mp h with rfl | h2
      · exact le_trans (le_max_right v a) (le_foldl_max ws (max v a))
      · exact ih (max v w) a (List.mem_cons_of_mem (max v w) h2)

/-- A max fold returns the seed or a folded element. -/
theorem foldl_max_mem (vs : List ℚ) : ∀ v : ℚ, vs.foldl max v ∈ v :: vs := by
  induction vs with
  | nil => intro v; simp
  | cons w ws ih =>
    intro v
    simp only [List.foldl_cons]
    rcases List.mem_cons.mp (ih (max v w)) with h | h
    · rcases max_choice v w with hm | hm
      · rw [hm] at h ⊢
        rw [h]
        exact List.mem_cons_self v (w :: ws)
      · rw [hm] at h ⊢
        rw [h]
        exact List.mem_cons_of_mem v (List.mem_cons_self w ws)
    · exact List.mem_cons_of_mem v (List.mem_cons_of_mem w h)

/-- Every entry kept by the floor filter has a score above the floor. -/
theorem validAboveFloor_gt_floor (ms : MethodScores) :
    ∀ mv ∈ validAboveFloor ms, floorR2 < mv.2 := by
  intro mv hmv
  rcases List.mem_filterMap.mp hmv with ⟨kv, _, hkv⟩
  split at hkv
  · split at hkv
    · rename_i hv
      cases hkv
      exact hv
    · exact absurd hkv (by simp)
  · exact absurd hkv (by simp)

/-! ### Claim C4: the summary table -/

/-- Claim C4: the summary table has exactly 8 data rows, one per fixed
constituent; an absent constituent gives the Not available placeholder with
the em dash, a constituent with no entry above the floor gives the No valid
results placeholder with the em dash, and the rows are stably sorted by
descending stored score, the placeholders participating through their 0.000
numeric sentinel rather than being forced to the bottom. -/
theorem claim_C4_summary_rows (data : ResultSet) (c1 c2 : PyStr) (ms2 : MethodScores)
    (h1 : c1 ∈ target_constituents) (h2 : data.lookup c1 = none)
    (h3 : c2 ∈ target_constituents) (h4 : data.lookup c2 = some ms2)
    (h5 : validAboveFloor ms2 = []) :
    (create_best_methods_summary_table data).length = 8 ∧
    List.Perm (summaryRowsSorted data) (target_constituents.map (bestRowFor data)) ∧
    (summaryRowsSorted data).Pairwise (fun a b => b.2.2 ≤ a.2.2) ∧
    (c1, notAvailTxt, (0 : ℚ)) ∈ summaryRowsSorted data ∧
    (renderSummaryRow (c1, notAvailTxt, (0 : ℚ))).2.2 = ScoreCell.emDash ∧
    (c2, noValidTxt, (0 : ℚ)) ∈ summaryRowsSorted data ∧
    (renderSummaryRow (c2, noValidTxt, (0 : ℚ))).2.2 = ScoreCell.emDash := by
  have hperm : List.Perm (summaryRowsSorted data)
      (target_constituents.map (bestRowFor data)) :=
    pySortDesc_perm (fun r : PyStr × PyStr × ℚ => r.2.2) _
  refine ⟨?_, hperm, ?_, ?_, ?_, ?_, ?_⟩
  · unfold create_best_methods_summary_table
    rw [List.length_map, hperm.length_eq, List.length_map]
    rfl
  · exact pySortDesc_pairwise (fun r : PyStr × PyStr × ℚ => r.2.2) _
  · have hrow : bestRowFor data c1 = (c1, notAvailTxt, (0 : ℚ)) := by
      simp only [bestRowFor, h2]
    rw [← hrow]
    exact hperm.mem_iff.mpr (List.mem_map_of_mem (bestRowFor data) h1)
  · simp [renderSummaryRow]
  · have hrow : bestRowFor data c2 = (c2, noValidTxt, (0 : ℚ)) := by
      simp only [bestRowFor, h4, h5]
    rw [← hrow]
    exact hperm.mem_iff.mpr (List.mem_map_of_mem (bestRowFor data) h3)
  · simp [renderSummaryRow]

/-- Witness for C4: pH is present with only a null score; Clay Content is
absent. -/
theorem claim_C4_summary_rows_witness :
    (strLit "Clay_Content" ∈ target_constituents ∧
      exC4Data.lookup (strLit "Clay_Content") = none ∧
      strLit "pH" ∈ target_constituents ∧
      exC4Data.lookup (strLit "pH") = some [(strLit "m", none)] ∧
      validAboveFloor [(strLit "m", none)] = []) ∧
    ((create_best_methods_summary_table exC4Data).length = 8 ∧
    List.Perm (summaryRowsSorted exC4Data) (target_constituents.map (bestRowFor exC4Data)) ∧
    (summaryRowsSorted exC4Data).Pairwise (fun a b => b.2.2 ≤ a.2.2) ∧
    (strLit "Clay_Content", notAvailTxt, (0 : ℚ)) ∈ summaryRowsSorted exC4Data ∧
    (renderSummaryRow (strLit "Clay_Content", notAvailTxt, (0 : ℚ))).2.2 = ScoreCell.emDash ∧
    (strLit "pH", noValidTxt, (0 : ℚ)) ∈ summaryRowsSorted exC4Data ∧
    (renderSummaryRow (strLit "pH", noValidTxt, (0 : ℚ))).2.2 = ScoreCell.emDash) :=
  ⟨⟨by decide, by decide, by decide, by decide, by decide⟩,
    claim_C4_summary_rows exC4Data (strLit "Clay_Content") (strLit "pH")
      [(strLit "m", none)] (by decide) (by decide) (by decide) (by decide) (by decide)⟩

/-! ### Claim C5: order and content of the detailed tables -/

/-- Counterexample to C5 as stated: property A has best valid score minus
999.5, which is above the floor but below the sentinel, so property B, which
has no valid score, is ordered first, not last. -/
theorem claim_C5_counterexample :
    ((generate_all_latex_tables exC5Data).2.map tablePropertyName =
      [strLit "B", strLit "A"]) ∧
    validAboveFloor ((exC5Data.lookup (strLit "B")).getD []) = [] ∧
    validAboveFloor ((exC5Data.lookup (strLit "A")).getD []) ≠ [] :=
  ⟨by decide, by decide, by decide⟩

/-- The scores column of a detailed table is the truncation of the sorted
qualifying scores. -/
theorem tableScores_create_latex_table (p : PyStr) (ms : MethodScores) (n : Nat) :
    tableScores (create_latex_table p ms n) =
      ((pySortDesc Prod.snd (validAboveFloor ms)).take n).map Prod.snd := by
  unfold create_latex_table
  cases he : ((pySortDesc Prod.snd (validAboveFloor ms)).take n).isEmpty with
  | true =>
    simp only [he, if_true]
    rw [List.isEmpty_iff] at he
    rw [he]
    rfl
  | false =>
    simp only [he, Bool.false_eq_true, if_false, tableScores]
    rw [List.map_map]
    rfl

/-- The floor-and-sort characterization of bestValidR2: the sentinel minus
999 when no entry qualifies, otherwise the maximum qualifying score. -/
theorem bestValidR2_spec (ms : MethodScores) :
    (validAboveFloor ms = [] → bestValidR2 ms = -999) ∧
    (∀ mv ∈ validAboveFloor ms, mv.2 ≤ bestValidR2 ms) ∧
    (validAboveFloor ms = [] ∨ ∃ mv ∈ validAboveFloor ms, bestValidR2 ms = mv.2) := by
  cases hv : validAboveFloor ms with
  | nil =>
    refine ⟨fun _ => ?_, ?_, Or.inl rfl⟩
    · unfold bestValidR2
      rw [hv]
      rfl
    · intro mv hmv
      simp at hmv
  | cons q qs =>
    have hbv : bestValidR2 ms = (qs.map Prod.snd).foldl max q.2 := by
      unfold bestValidR2
      rw [hv]
      rfl
    refine ⟨fun h => absurd h (by simp), ?_, Or.inr ?_⟩
    · intro mv hmv
      rw [hbv]
      apply foldl_max_ge (qs.map Prod.snd) q.2 mv.2
      rcases List.mem_cons.mp hmv with rfl | h
      · exact List.mem_cons_self _ _
      · exact List.mem_cons_of_mem q.2 (List.mem_map_of_mem Prod.snd h)
    · have hm := foldl_max_mem (qs.map Prod.snd) q.2
      rcases List.mem_cons.mp hm with h | h
      · exact ⟨q, List.mem_cons_self q qs, by rw [hbv, h]⟩
      · rcases List.mem_map.mp h with ⟨mv, hmv, hmv2⟩
        exact ⟨mv, List.mem_cons_of_mem q hmv, by rw [hbv, ← hmv2]⟩

/-- A nonzero truncation is empty only when the qualifying list is. -/
theorem create_latex_table_placeholder_iff (p : PyStr) (ms : MethodScores)
    (n : Nat) (hn : n ≠ 0) :
    create_latex_table p ms n = DetailedTable.placeholderTable p ↔
      validAboveFloor ms = [] := by
  unfold create_latex_table
  cases he : ((pySortDesc Prod.snd (validAboveFloor ms)).take n).isEmpty with
  | true =>
    simp only [he, if_true]
    rw [List.isEmpty_iff] at he
    constructor
    · intro _
      rcases List.take_eq_nil_iff.mp he with h | h
      · exact absurd h hn
      · exact ((h ▸ pySortDesc_perm Prod.snd (validAboveFloor ms)).symm).eq_nil
    · intro _
      trivial
  | false =>
    simp only [he, Bool.false_eq_true, if_false]
    constructor
    · intro h
      exact absurd h (by simp)
    · intro h
      rw [h] at he
      simp [pySortDesc] at he

/-- Amended C5: the detailed tables appear in descending order of each
property's performance value, where the performance value is the best
non-null score above the minus 1000 floor when one exists and the minus 999
sentinel otherwise; a no-score property therefore ranks after every property
whose best score is at least minus 999 but before one whose best qualifying
score is below the sentinel.  Each table lists at most the top 10 qualifying
entries in descending score order, and a property with no qualifying entry
yields the comment-only placeholder. -/
theorem claim_C5_amended_detailed_tables (data : ResultSet) (p : PyStr) (ms : MethodScores) :
    ((generate_all_latex_tables data).2 =
      (sortedProperties data).map
        (fun pb => create_latex_table pb.1 ((data.lookup pb.1).getD []) 10)) ∧
    List.Perm (sortedProperties data) (property_performance data) ∧
    (sortedProperties data).Pairwise (fun a b => b.2 ≤ a.2) ∧
    (validAboveFloor ms = [] → bestValidR2 ms = -999) ∧
    (∀ mv ∈ validAboveFloor ms, mv.2 ≤ bestValidR2 ms) ∧
    (validAboveFloor ms = [] ∨ ∃ mv ∈ validAboveFloor ms, bestValidR2 ms = mv.2) ∧
    (create_latex_table p ms 10 = DetailedTable.placeholderTable p ↔
      validAboveFloor ms = []) ∧
    (tableScores (create_latex_table p ms 10)).Pairwise (fun a b => b ≤ a) ∧
    (tableScores (create_latex_table p ms 10)).length = min 10 (validAboveFloor ms).length ∧
    (∀ s ∈ tableScores (create_latex_table p ms 10), floorR2 < s) ∧
    (∀ mv ∈ validAboveFloor ms,
      mv.2 ∈ tableScores (create_latex_table p ms 10) ∨
        ∀ s ∈ tableScores (create_latex_table p ms 10), mv.2 ≤ s) := by
  have hq := validAboveFloor_gt_floor ms
  have hperm := pySortDesc_perm (α := PyStr × ℚ) Prod.snd (validAboveFloor ms)
  have hsorted := pySortDesc_pairwise (α := PyStr × ℚ) Prod.snd (validAboveFloor ms)
  have hts := tableScores_create_latex_table p ms 10
  have hbv := bestValidR2_spec ms
  refine ⟨rfl, pySortDesc_perm Prod.snd _, pySortDesc_pairwise Prod.snd _,
    hbv.1, hbv.2.1, hbv.2.2, create_latex_table_placeholder_iff p ms 10 (by decide),
    ?_, ?_, ?_, ?_⟩
  · rw [hts, List.pairwise_map]
    exact hsorted.sublist (List.take_sublist 10 _)
  · rw [hts, List.length_map, List.length_take, hperm.length_eq]
  · intro s hs
    rw [hts] at hs
    rcases List.mem_map.mp hs with ⟨rv, hrv, rfl⟩
    exact hq rv (hperm.mem_iff.mp ((List.take_sublist 10 _).subset hrv))
  · intro mv hmv
    by_cases hin : mv ∈ (pySortDesc Prod.snd (validAboveFloor ms)).take 10
    · left
      rw [hts]
      exact List.mem_map_of_mem Prod.snd hin
    · right
      intro s hs
      rw [hts] at hs
      rcases List.mem_map.mp hs with ⟨rv, hrv, rfl⟩
      have hmv' : mv ∈ pySortDesc Prod.snd (validAboveFloor ms) := hperm.mem_iff.mpr hmv
      have hsplit := List.take_append_drop 10 (pySortDesc Prod.snd (validAboveFloor ms))
      have hmvdrop : mv ∈ (pySortDesc Prod.snd (validAboveFloor ms)).drop 10 := by
        rcases List.mem_append.mp (by rw [hsplit]; exact hmv') with h | h
        · exact absurd h hin
        · exact h
      have hpw := hsorted
      rw [← hsplit, List.pairwise_append] at hpw
      exact hpw.2.2 rv hrv mv hmvdrop

/-- Witness for the amended C5 at the two-property counterexample data. -/
theorem claim_C5_amended_detailed_tables_witness :
    ((generate_all_latex_tables exC5Data).2 =
      (sortedProperties exC5Data).map
        (fun pb => create_latex_table pb.1 ((exC5Data.lookup pb.1).getD []) 10)) ∧
    List.Perm (sortedProperties exC5Data) (property_performance exC5Data) ∧
    (sortedProperties exC5Data).Pairwise (fun a b => b.2 ≤ a.2) ∧
    (validAboveFloor [(strLit "m1", some (mkRat (-1999) 2))] = [] →
      bestValidR2 [(strLit "m1", some (mkRat (-1999) 2))] = -999) ∧
    (∀ mv ∈ validAboveFloor [(strLit "m1", some (mkRat (-1999) 2))],
      mv.2 ≤ bestValidR2 [(strLit "m1", some (mkRat (-1999) 2))]) ∧
    (validAboveFloor [(strLit "m1", some (mkRat (-1999) 2))] = [] ∨
      ∃ mv ∈ validAboveFloor [(strLit "m1", some (mkRat (-1999) 2))],
        bestValidR2 [(strLit "m1", some (mkRat (-1999) 2))] = mv.2) ∧
    (create_latex_table (strLit "A") [(strLit "m1", some (mkRat (-1999) 2))] 10 =
        DetailedTable.placeholderTable (strLit "A") ↔
      validAboveFloor [(strLit "m1", some (mkRat (-1999) 2))] = []) ∧
    (tableScores (create_latex_table (strLit "A")
      [(strLit "m1", some (mkRat (-1999) 2))] 10)).Pairwise (fun a b => b ≤ a) ∧
    (tableScores (create_latex_table (strLit "A")
        [(strLit "m1", some (mkRat (-1999) 2))] 10)).length =
      min 10 (validAboveFloor [(strLit "m1", some (mkRat (-1999) 2))]).length ∧
    (∀ s ∈ tableScores (create_latex_table (strLit "A")
      [(strLit "m1", some (mkRat (-1999) 2))] 10), floorR2 < s) ∧
    (∀ mv ∈ validAboveFloor [(strLit "m1", some (mkRat (-1999) 2))],
      mv.2 ∈ tableScores (create_latex_table (strLit "A")
        [(strLit "m1", some (mkRat (-1999) 2))] 10) ∨
        ∀ s ∈ tableScores (create_latex_table (strLit "A")
          [(strLit "m1", some (mkRat (-1999) 2))] 10), mv.2 ≤ s) :=
  claim_C5_amended_detailed_tables exC5Data (strLit "A")
    [(strLit "m1", some (mkRat (-1999) 2))]

/-! ### Claim C6: the derivative marker in cleaned labels -/

/-- Counterexample to C6 as stated: the marker is appended before the
word-capitalization pass, and the word (Deriv) is not fully upper-case, so
capitalize rewrites it; the cleaned label of pls_deriv is Pls (deriv) and
does not contain the claimed marker " (Deriv)". -/
theorem claim_C6_counterexample :
    clean_method_name_for_latex (strLit "pls_deriv") = strLit "Pls (deriv)" ∧
    (strLit " (Deriv)").isSuffixOf (clean_method_name_for_latex (strLit "pls_deriv")) = false :=
  ⟨by decide, by decide⟩

/-- Unfolding of the cleaner on a name carrying the derivative tag. -/
theorem clean_of_deriv (m : PyStr) (hm : derivSfx.isSuffixOf m = true) :
    clean_method_name_for_latex m =
      joinSp ((pySplit (applyReplacements (pyReplace [95] [32]
        (pyReplace derivSfx [] m)) ++ strLit " (Deriv)")).map capWord) := by
  unfold clean_method_name_for_latex
  rw [hm]
  rfl

/-- Unfolding of the cleaner on a name without the derivative tag. -/
theorem clean_of_nonderiv (m : PyStr) (hm : derivSfx.isSuffixOf m = false) :
    clean_method_name_for_latex m =
      joinSp ((pySplit (applyReplacements (pyReplace [95] [32] m))).map capWord) := by
  unfold clean_method_name_for_latex
  rw [hm]
  rfl

/-- Splitting distributes over an appended space. -/
theorem pySplitAux_append_space (ys : List Nat) :
    ∀ (xs acc : List Nat),
      pySplitAux (xs ++ 32 :: ys) acc = pySplitAux xs acc ++ pySplitAux ys [] := by
  intro xs
  induction xs with
  | nil =>
    intro acc
    show pySplitAux (32 :: ys) acc = pySplitAux [] acc ++ pySplitAux ys []
    simp only [pySplitAux]
    rw [if_pos (by decide : isSpaceCp 32 = true)]
    cases hacc : acc.isEmpty
    · simp
    · simp
  | cons c cs ih =>
    intro acc
    show pySplitAux (c :: (cs ++ 32 :: ys)) acc = pySplitAux (c :: cs) acc ++ pySplitAux ys []
    simp only [pySplitAux]
    by_cases hc : isSpaceCp c = true
    · rw [if_pos hc, if_pos hc]
      cases hacc : acc.isEmpty
      · rw [if_neg (by simp [hacc]), if_neg (by simp [hacc]), ih []]
        rfl
      · rw [if_pos (by simp [hacc]), if_pos (by simp [hacc])]
        exact ih []
    · rw [if_neg hc, if_neg hc]
      exact ih (c :: acc)

/-- The last word survives joining at the end of the string. -/
theorem suffix_joinSp (w : PyStr) : ∀ ws : List PyStr, w <:+ joinSp (ws ++ [w]) := by
  intro ws
  induction ws with
  | nil => exact List.suffix_refl w
  | cons a ws ih =>
    cases hws : ws ++ [w] with
    | nil => exact absurd hws (by simp)
    | cons b l2 =>
      have hj : joinSp (a :: (ws ++ [w])) = a ++ 32 :: joinSp (ws ++ [w]) := by
        rw [hws]
        rfl
      rw [List.cons_append, hj]
      refine ih.trans ?_
      have h32 : (32 : Nat) :: joinSp (ws ++ [w]) = [32] ++ joinSp (ws ++ [w]) := rfl
      rw [h32, ← List.append_assoc]
      exact List.suffix_append _ _

/-- Amended C6: for a name carrying the derivative tag the marker is appended
before the capitalization pass, whose word-wise rewriting turns it into
(deriv); every cleaned derivative label therefore ends in "(deriv)", not in
the claimed " (Deriv)". -/
theorem claim_C6_amended_deriv_marker (m : PyStr) (hm : derivSfx.isSuffixOf m = true) :
    clean_method_name_for_latex m =
      joinSp ((pySplit (applyReplacements (pyReplace [95] [32]
        (pyReplace derivSfx [] m)) ++ strLit " (Deriv)")).map capWord) ∧
    strLit "(deriv)" <:+ clean_method_name_for_latex m := by
  have hdef := clean_of_deriv m hm
  refine ⟨hdef, ?_⟩
  rw [hdef]
  have h1 : strLit " (Deriv)" = 32 :: strLit "(Deriv)" := by decide
  have hsplit : pySplit (applyReplacements (pyReplace [95] [32]
      (pyReplace derivSfx [] m)) ++ strLit " (Deriv)") =
      pySplit (applyReplacements (pyReplace [95] [32]
        (pyReplace derivSfx [] m))) ++ [strLit "(Deriv)"] := by
    rw [h1]
    unfold pySplit
    rw [pySplitAux_append_space]
    congr 1
  rw [hsplit, List.map_append]
  have hcap : List.map capWord [strLit "(Deriv)"] = [strLit "(deriv)"] := by decide
  rw [hcap]
  exact suffix_joinSp (strLit "(deriv)") _

/-- Witness for the amended C6 at the name pls_deriv. -/
theorem claim_C6_amended_deriv_marker_witness :
    derivSfx.isSuffixOf (strLit "pls_deriv") = true ∧
    (clean_method_name_for_latex (strLit "pls_deriv") =
      joinSp ((pySplit (applyReplacements (pyReplace [95] [32]
        (pyReplace derivSfx [] (strLit "pls_deriv"))) ++ strLit " (Deriv)")).map capWord) ∧
    strLit "(deriv)" <:+ clean_method_name_for_latex (strLit "pls_deriv")) :=
  ⟨by decide, claim_C6_amended_deriv_marker (strLit "pls_deriv") (by decide)⟩

/-! ### Claim C7: character-level groundwork -/

/-- Upper-casing a code point twice equals doing it once. -/
theorem toUpperCp_idem (c : Nat) : toUpperCp (toUpperCp c) = toUpperCp c := by
  unfold toUpperCp
  split_ifs <;> omega

/-- Lower-casing a code point twice equals doing it once. -/
theorem toLowerCp_idem (c : Nat) : toLowerCp (toLowerCp c) = toLowerCp c := by
  unfold toLowerCp
  split_ifs <;> omega

/-- Upper-casing never produces whitespace. -/
theorem isSpaceCp_toUpperCp (c : Nat) (h : isSpaceCp c = false) :
    isSpaceCp (toUpperCp c) = false := by
  unfold toUpperCp
  split_ifs with hc
  · simp only [isSpaceCp, Bool.or_eq_false_iff, beq_eq_false_iff_ne, ne_eq] at h ⊢
    omega
  · exact h

/-- Lower-casing never produces whitespace. -/
theorem isSpaceCp_toLowerCp (c : Nat) (h : isSpaceCp c = false) :
    isSpaceCp (toLowerCp c) = false := by
  unfold toLowerCp
  split_ifs with hc
  · simp only [isSpaceCp, Bool.or_eq_false_iff, beq_eq_false_iff_ne, ne_eq] at h ⊢
    omega
  · exact h

/-- Upper-casing never produces an underscore. -/
theorem ne95_toUpperCp (c : Nat) (h : c ≠ 95) : toUpperCp c ≠ 95 := by
  unfold toUpperCp
  split_ifs with hc <;> omega

/-- Lower-casing never produces an underscore. -/
theorem ne95_toLowerCp (c : Nat) (h : c ≠ 95) : toLowerCp c ≠ 95 := by
  unfold toLowerCp
  split_ifs with hc <;> omega

/-- Characters of a capitalized word are case images of its characters. -/
theorem mem_capWord (w : PyStr) (x : Nat) (hx : x ∈ capWord w) :
    ∃ y ∈ w, x = y ∨ x = toUpperCp y ∨ x = toLowerCp y := by
  unfold capWord at hx
  split_ifs at hx
  · exact ⟨x, hx, Or.inl rfl⟩
  · cases w with
    | nil => simp [pyCapitalize] at hx
    | cons c cs =>
      simp only [pyCapitalize] at hx
      rcases List.mem_cons.mp hx with rfl | h
      · exact ⟨c, List.mem_cons_self c cs, Or.inr (Or.inl rfl)⟩
      · rcases List.mem_map.mp h with ⟨y, hy, rfl⟩
        exact ⟨y, List.mem_cons_of_mem c hy, Or.inr (Or.inr rfl)⟩

/-- Capitalizing keeps a word nonempty. -/
theorem capWord_ne_nil (w : PyStr) (hw : w ≠ []) : capWord w ≠ [] := by
  unfold capWord
  split_ifs
  · exact hw
  · cases w with
    | nil => exact absurd rfl hw
    | cons c cs => simp [pyCapitalize]

/-- The capitalize pass is idempotent on a single word. -/
theorem pyCapitalize_idem (w : PyStr) : pyCapitalize (pyCapitalize w) = pyCapitalize w := by
  cases w with
  | nil => rfl
  | cons c cs =>
    simp only [pyCapitalize, List.map_map]
    have hl : toLowerCp ∘ toLowerCp = toLowerCp := funext toLowerCp_idem
    rw [toUpperCp_idem, hl]

/-- The per-word step of the capitalization pass is idempotent. -/
theorem capWord_idem (w : PyStr) : capWord (capWord w) = capWord w := by
  unfold capWord
  by_cases h : pyIsUpper w = true
  · simp only [h, if_true]
  · rw [Bool.not_eq_true] at h
    simp only [h, Bool.false_eq_true, if_false]
    by_cases h2 : pyIsUpper (pyCapitalize w) = true
    · simp only [h2, if_true]
    · rw [Bool.not_eq_true] at h2
      simp only [h2, Bool.false_eq_true, if_false]
      exact pyCapitalize_idem w

/-- Characters of a replacement result come from the text or the new string. -/
theorem mem_replaceFuel (c : Nat) (cs new : List Nat) :
    ∀ (fuel : Nat) (s : List Nat) (x : Nat),
      x ∈ replaceFuel c cs new fuel s → x ∈ s ∨ x ∈ new := by
  intro fuel
  induction fuel with
  | zero =>
    intro s x hx
    exact Or.inl hx
  | succ fuel ih =>
    intro s x hx
    cases s with
    | nil => simp [replaceFuel] at hx
    | cons y ys =>
      simp only [replaceFuel] at hx
      split at hx
      · rcases List.mem_append.mp hx with h | h
        · exact Or.inr h
        · rcases ih _ x h with h2 | h2
          · exact Or.inl (List.mem_cons_of_mem y (List.mem_of_mem_drop h2))
          · exact Or.inr h2
      · rcases List.mem_cons.mp hx with rfl | h
        · exact Or.inl (List.mem_cons_self _ _)
        · rcases ih _ x h with h2 | h2
          · exact Or.inl (List.mem_cons_of_mem y h2)
          · exact Or.inr h2

/-- Characters of a Python replace come from the text or the new string. -/
theorem mem_pyReplace (old new s : List Nat) (x : Nat) (hx : x ∈ pyReplace old new s) :
    x ∈ s ∨ x ∈ new := by
  unfold pyReplace at hx
  cases old with
  | nil => exact Or.inl hx
  | cons c cs => exact mem_replaceFuel c cs new s.length s x hx

/-- Single-character replacement is a pointwise map. -/
theorem replaceFuel_single (c d : Nat) :
    ∀ (fuel : Nat) (s : List Nat), s.length ≤ fuel →
      replaceFuel c [] [d] fuel s = s.map (fun x => if x = c then d else x) := by
  intro fuel
  induction fuel with
  | zero =>
    intro s hs
    cases s with
    | nil => rfl
    | cons y ys => simp at hs
  | succ fuel ih =>
    intro s hs
    cases s with
    | nil => rfl
    | cons y ys =>
      have hys : ys.length ≤ fuel := by
        simp only [List.length_cons] at hs
        omega
      simp only [replaceFuel, List.map_cons]
      by_cases hy : y = c
      · subst hy
        rw [if_pos (by simp [List.isPrefixOf])]
        simp only [List.length_nil, List.drop_zero]
        rw [ih ys hys]
        simp
      · have hne : ¬ (([c] : List Nat).isPrefixOf (y :: ys) = true) := by
          simp only [List.isPrefixOf, Bool.and_eq_true, beq_iff_eq]
          intro h
          exact hy h.1.symm
        rw [if_neg hne, ih ys hys, if_neg hy]

/-- The underscore replacement as a pointwise map. -/
theorem pyReplace_underscore_map (s : PyStr) :
    pyReplace [95] [32] s = s.map (fun x => if x = 95 then 32 else x) :=
  replaceFuel_single 95 32 s.length s (le_refl _)

/-- No underscore survives the underscore replacement. -/
theorem no95_pyReplace_underscore (s : PyStr) : 95 ∉ pyReplace [95] [32] s := by
  rw [pyReplace_underscore_map]
  intro h
  rcases List.mem_map.mp h with ⟨y, _, hy⟩
  by_cases h95 : y = 95
  · rw [if_pos h95] at hy
    exact absurd hy (by decide)
  · rw [if_neg h95] at hy
    exact h95 hy

/-- The underscore replacement fixes underscore-free strings. -/
theorem pyReplace_underscore_id (s : PyStr) (h : 95 ∉ s) : pyReplace [95] [32] s = s := by
  rw [pyReplace_underscore_map]
  have hcong : ∀ x ∈ s, (if x = 95 then 32 else x) = x := by
    intro x hx
    by_cases hc : x = 95
    · subst hc
      exact absurd hx h
    · rw [if_neg hc]
  rw [List.map_congr_left hcong]
  simp

/-- The phrase renames never introduce an underscore: none of the replacement
values contains one. -/
theorem no95_applyReplacements (s : PyStr) (h : 95 ∉ s) : 95 ∉ applyReplacements s := by
  have key : ∀ (prs : List (PyStr × PyStr)), (∀ pr ∈ prs, 95 ∉ pr.2) →
      ∀ t : PyStr, 95 ∉ t → 95 ∉ prs.foldl (fun acc p => pyReplace p.1 p.2 acc) t := by
    intro prs
    induction prs with
    | nil =>
      intro _ t ht
      exact ht
    | cons pr prs ih =>
      intro hvals t ht
      simp only [List.foldl_cons]
      refine ih (fun q hq => hvals q (List.mem_cons_of_mem pr hq)) _ ?_
      intro hx
      rcases mem_pyReplace pr.1 pr.2 t 95 hx with h2 | h2
      · exact ht h2
      · exact hvals pr (List.mem_cons_self pr prs) h2
  exact key replacementPairs (by decide) s h

/-- Words produced by splitting are nonempty, whitespace-free, and drawn from
the input and the accumulator. -/
theorem pySplitAux_words (s : List Nat) :
    ∀ acc : List Nat, (∀ a ∈ acc, isSpaceCp a = false) →
      ∀ w ∈ pySplitAux s acc,
        w ≠ [] ∧ ∀ x ∈ w, isSpaceCp x = false ∧ (x ∈ s ∨ x ∈ acc) := by
  induction s with
  | nil =>
    intro acc hacc w hw
    simp only [pySplitAux] at hw
    by_cases he : acc.isEmpty = true
    · rw [if_pos he] at hw
      simp at hw
    · rw [if_neg he] at hw
      rcases List.mem_cons.mp hw with rfl | hw2
      · refine ⟨?_, ?_⟩
        · intro hnil
          rw [List.reverse_eq_nil_iff] at hnil
          rw [hnil] at he
          exact he rfl
        · intro x hx
          rw [List.mem_reverse] at hx
          exact ⟨hacc x hx, Or.inr hx⟩
      · simp at hw2
  | cons c cs ih =>
    intro acc hacc w hw
    simp only [pySplitAux] at hw
    by_cases hc : isSpaceCp c = true
    · rw [if_pos hc] at hw
      by_cases he : acc.isEmpty = true
      · rw [if_pos he] at hw
        have hv := ih [] (by simp) w hw
        refine ⟨hv.1, fun x hx => ⟨(hv.2 x hx).1, ?_⟩⟩
        rcases (hv.2 x hx).2 with h | h
        · exact Or.inl (List.mem_cons_of_mem c h)
        · simp at h
      · rw [if_neg he] at hw
        rcases List.mem_cons.mp hw with rfl | hw2
        · refine ⟨?_, ?_⟩
          · intro hnil
            rw [List.reverse_eq_nil_iff] at hnil
            rw [hnil] at he
            exact he rfl
          · intro x hx
            rw [List.mem_reverse] at hx
            exact ⟨hacc x hx, Or.inr hx⟩
        · have hv := ih [] (by simp) w hw2
          refine ⟨hv.1, fun x hx => ⟨(hv.2 x hx).1, ?_⟩⟩
          rcases (hv.2 x hx).2 with h | h
          · exact Or.inl (List.mem_cons_of_mem c h)
          · simp at h
    · rw [if_neg hc] at hw
      rw [Bool.not_eq_true] at hc
      have hacc2 : ∀ a ∈ c :: acc, isSpaceCp a = false := by
        intro a ha
        rcases List.mem_cons.mp ha with rfl | ha2
        · exact hc
        · exact hacc a ha2
      have hv := ih (c :: acc) hacc2 w hw
      refine ⟨hv.1, fun x hx => ⟨(hv.2 x hx).1, ?_⟩⟩
      rcases (hv.2 x hx).2 with h | h
      · exact Or.inl (List.mem_cons_of_mem c h)
      · rcases List.mem_cons.mp h with rfl | h2
        · exact Or.inl (List.mem_cons_self _ _)
        · exact Or.inr h2

/-- Splitting a whitespace-free string yields the accumulated single word. -/
theorem pySplitAux_no_space (s : List Nat) :
    ∀ acc : List Nat, (∀ x ∈ s, isSpaceCp x = false) →
      pySplitAux s acc =
        if (acc.reverse ++ s).isEmpty then [] else [acc.reverse ++ s] := by
  induction s with
  | nil =>
    intro acc _
    cases acc with
    | nil => rfl
    | cons a as => simp [pySplitAux, List.isEmpty_iff]
  | cons c cs ih =>
    intro acc hs
    have hc : isSpaceCp c = false := hs c (List.mem_cons_self c cs)
    simp only [pySplitAux, hc, Bool.false_eq_true, if_false]
    rw [ih (c :: acc) (fun x hx => hs x (List.mem_cons_of_mem c hx))]
    have heq : (c :: acc).reverse ++ cs = acc.reverse ++ c :: cs := by
      rw [List.reverse_cons, List.append_assoc]
      rfl
    rw [heq]

/-- Splitting inverts joining on nonempty whitespace-free words. -/
theorem pySplit_joinSp : ∀ ws : List PyStr,
    (∀ w ∈ ws, w ≠ [] ∧ ∀ x ∈ w, isSpaceCp x = false) →
      pySplit (joinSp ws) = ws := by
  intro ws
  induction ws with
  | nil =>
    intro _
    rfl
  | cons w ws ih =>
    intro hws
    have hw := hws w (List.mem_cons_self w ws)
    cases ws with
    | nil =>
      show pySplitAux w [] = [w]
      rw [pySplitAux_no_space w [] hw.2]
      simp [List.isEmpty_iff, hw.1]
    | cons v vs =>
      have hjoin : joinSp (w :: v :: vs) = w ++ 32 :: joinSp (v :: vs) := rfl
      show pySplit (joinSp (w :: v :: vs)) = w :: v :: vs
      rw [hjoin]
      unfold pySplit
      rw [pySplitAux_append_space]
      have h1 : pySplitAux w [] = [w] := by
        rw [pySplitAux_no_space w [] hw.2]
        simp [List.isEmpty_iff, hw.1]
      rw [h1]
      have h2 := ih (fun u hu => hws u (List.mem_cons_of_mem w hu))
      rw [show pySplitAux (joinSp (v :: vs)) [] = pySplit (joinSp (v :: vs)) from rfl, h2]
      rfl

/-- Characters of a joined list come from the words or are the space. -/
theorem mem_joinSp : ∀ (ws : List PyStr) (x : Nat), x ∈ joinSp ws →
    x = 32 ∨ ∃ w ∈ ws, x ∈ w := by
  intro ws
  induction ws with
  | nil =>
    intro x hx
    simp [joinSp] at hx
  | cons w ws ih =>
    intro x hx
    cases ws with
    | nil => exact Or.inr ⟨w, List.mem_cons_self w [], hx⟩
    | cons v vs =>
      have hjoin : joinSp (w :: v :: vs) = w ++ 32 :: joinSp (v :: vs) := rfl
      rw [hjoin] at hx
      rcases List.mem_append.mp hx with h | h
      · exact Or.inr ⟨w, List.mem_cons_self _ _, h⟩
      · rcases List.mem_cons.mp h with rfl | h2
        · exact Or.inl rfl
        · rcases ih x h2 with h3 | ⟨u, hu, hxu⟩
          · exact Or.inl h3
          · exact Or.inr ⟨u, List.mem_cons_of_mem w hu, hxu⟩

/-- The cleaned label never contains an underscore: the underscore
replacement removes every one, and neither the phrase renames, the marker,
nor the capitalization pass reintroduces one. -/
theorem no95_clean (m : PyStr) : 95 ∉ clean_method_name_for_latex m := by
  have main : ∀ c4 : List Nat, 95 ∉ c4 → 95 ∉ joinSp ((pySplit c4).map capWord) := by
    intro c4 h4 hx
    rcases mem_joinSp _ 95 hx with h | ⟨w, hw, hxw⟩
    · exact absurd h (by decide)
    · rcases List.mem_map.mp hw with ⟨w0, hw0, rfl⟩
      rcases mem_capWord w0 95 hxw with ⟨y, hy, hcase⟩
      have hy95 : y ≠ 95 := by
        intro hy95
        subst hy95
        have hword := pySplitAux_words c4 [] (by simp) w0 hw0
        rcases (hword.2 95 hy).2 with h | h
        · exact h4 h
        · simp at h
      rcases hcase with h | h | h
      · exact hy95 h.symm
      · exact ne95_toUpperCp y hy95 h.symm
      · exact ne95_toLowerCp y hy95 h.symm
  by_cases hd : derivSfx.isSuffixOf m = true
  · rw [clean_of_deriv m hd]
    apply main
    intro hx
    rcases List.mem_append.mp hx with h | h
    · exact no95_applyReplacements _ (no95_pyReplace_underscore _) h
    · exact absurd h (by decide)
  · rw [Bool.not_eq_true] at hd
    rw [clean_of_nonderiv m hd]
    exact main _ (no95_applyReplacements _ (no95_pyReplace_underscore _))

/-- A cleaned label never carries the derivative tag, since the tag contains
an underscore. -/
theorem clean_not_deriv (m : PyStr) :
    derivSfx.isSuffixOf (clean_method_name_for_latex m) = false := by
  cases hd : derivSfx.isSuffixOf (clean_method_name_for_latex m) with
  | false => rfl
  | true =>
    exfalso
    have hsfx := List.isSuffixOf_iff_suffix.mp hd
    have h95 : (95 : Nat) ∈ clean_method_name_for_latex m :=
      hsfx.subset (by decide)
    exact no95_clean m h95

/-! ### Claim C7: idempotence of the label cleanup -/

/-- Counterexample to C7 as stated: cleaning enhanced underscore neural
underscore network once yields Enhanced Neural Network, which the phrase
table then rewrites to Enhanced NN on the second pass, so the cleanup is not
idempotent. -/
theorem claim_C7_counterexample :
    clean_method_name_for_latex (strLit "enhanced_neural_network") =
      strLit "Enhanced Neural Network" ∧
    clean_method_name_for_latex
        (clean_method_name_for_latex (strLit "enhanced_neural_network")) =
      strLit "Enhanced NN" ∧
    clean_method_name_for_latex
        (clean_method_name_for_latex (strLit "enhanced_neural_network")) ≠
      clean_method_name_for_latex (strLit "enhanced_neural_network") :=
  ⟨by decide, by decide, by decide⟩

/-- Amended C7: the cleanup is idempotent on every label that the phrase
rename table leaves unchanged.  In particular no second derivative marker is
ever appended, since a cleaned label is underscore-free, and the word
capitalization pass is idempotent; the only failures of idempotence come
from a once-cleaned label that still matches a phrase-rename key. -/
theorem claim_C7_amended_conditional_idempotence (m : PyStr)
    (happ : applyReplacements (clean_method_name_for_latex m) =
      clean_method_name_for_latex m) :
    clean_method_name_for_latex (clean_method_name_for_latex m) =
      clean_method_name_for_latex m := by
  have hwords : ∀ c4 : List Nat,
      pySplit (joinSp ((pySplit c4).map capWord)) = (pySplit c4).map capWord := by
    intro c4
    apply pySplit_joinSp
    intro w hw
    rcases List.mem_map.mp hw with ⟨w0, hw0, rfl⟩
    have h0 := pySplitAux_words c4 [] (by simp) w0 hw0
    refine ⟨capWord_ne_nil w0 h0.1, ?_⟩
    intro x hx
    rcases mem_capWord w0 x hx with ⟨y, hy, hc⟩
    have hysp := (h0.2 y hy).1
    rcases hc with rfl | rfl | rfl
    · exact hysp
    · exact isSpaceCp_toUpperCp y hysp
    · exact isSpaceCp_toLowerCp y hysp
  have hnf : ∀ c4 : List Nat,
      joinSp ((pySplit (joinSp ((pySplit c4).map capWord))).map capWord) =
        joinSp ((pySplit c4).map capWord) := by
    intro c4
    rw [hwords c4, List.map_map]
    have hcc : capWord ∘ capWord = capWord := funext capWord_idem
    rw [hcc]
  have hd2 := clean_of_nonderiv (clean_method_name_for_latex m) (clean_not_deriv m)
  rw [hd2, pyReplace_underscore_id _ (no95_clean m), happ]
  by_cases hd : derivSfx.isSuffixOf m = true
  · rw [clean_of_deriv m hd]
    exact hnf _
  · rw [Bool.not_eq_true] at hd
    rw [clean_of_nonderiv m hd]
    exact hnf _

/-- Witness for the amended C7 at the name pls_deriv, whose cleaned label
Pls (deriv) matches no phrase-rename key. -/
theorem claim_C7_amended_conditional_idempotence_witness :
    applyReplacements (clean_method_name_for_latex (strLit "pls_deriv")) =
      clean_method_name_for_latex (strLit "pls_deriv") ∧
    clean_method_name_for_latex (clean_method_name_for_latex (strLit "pls_deriv")) =
      clean_method_name_for_latex (strLit "pls_deriv") :=
  ⟨by decide, claim_C7_amended_conditional_idempotence (strLit "pls_deriv") (by decide)⟩

/-! ### Claim C8: the Loader -/

/-- Counterexample to C8 as stated: a source that parses as valid JSON of
the wrong shape, here an array, is returned unchanged with no shape check,
not replaced by an empty result set. -/
theorem claim_C8_counterexample :
    load_json_file (LoadOutcome.parsed (Json.arr [Json.num 1])) = Json.arr [Json.num 1] ∧
    isResultSetJson (Json.arr [Json.num 1]) = false ∧
    load_json_file (LoadOutcome.parsed (Json.arr [Json.num 1])) ≠ Json.obj [] :=
  ⟨rfl, rfl, fun h => Json.noConfusion h⟩

/-- Amended C8: the loader is total, every failure of the source being
caught, and returns an empty mapping for a missing, unreadable, or
undecodable source; a source that parses as JSON, of whatever shape, is
returned unchanged, with no validation of the two-level mapping shape. -/
theorem claim_C8_amended_loader :
    load_json_file LoadOutcome.missing = Json.obj [] ∧
    load_json_file LoadOutcome.unreadable = Json.obj [] ∧
    load_json_file LoadOutcome.badJson = Json.obj [] ∧
    ∀ v : Json, load_json_file (LoadOutcome.parsed v) = v :=
  ⟨rfl, rfl, rfl, fun _ => rfl⟩

/-! ### Claim C9: total input absence is fatal -/

/-- Claim C9: when both sources load as falsy values such as missing files,
malformed files, or empty mappings, main prints the explicit error message
and halts before producing either output artifact. -/
theorem claim_C9_both_empty_halts (s1 s2 : LoadOutcome)
    (h1 : pyFalsy (load_json_file s1) = true)
    (h2 : pyFalsy (load_json_file s2) = true) :
    mainRun s1 s2 =
      MainOutcome.haltedNoData
        (strLit "ERROR: No data loaded from either file. Exiting.") := by
  simp only [mainRun, h1, h2]
  rfl

/-- Witness for C9: both sources missing. -/
theorem claim_C9_both_empty_halts_witness :
    (pyFalsy (load_json_file LoadOutcome.missing) = true ∧
      pyFalsy (load_json_file LoadOutcome.missing) = true) ∧
    mainRun LoadOutcome.missing LoadOutcome.missing =
      MainOutcome.haltedNoData
        (strLit "ERROR: No data loaded from either file. Exiting.") :=
  ⟨⟨by decide, by decide⟩,
    claim_C9_both_empty_halts LoadOutcome.missing LoadOutcome.missing
      (by decide) (by decide)⟩

/-! ### Claim C10: best-method selection of the statistics report -/

/-- Claim C10: when a property has a non-null score strictly above minus 1,
the reported best method is an entry of the property with a non-null score,
so its 4-decimal formatting succeeds, and its score is maximal among the
non-null scores.  The precondition is needed because the selection key
substitutes minus 1 for null scores: as the last conjunct shows, when every
non-null score is at most minus 1 a null-scored entry is selected. -/
theorem claim_C10_summary_best_method (ms : MethodScores)
    (h : ∃ mv ∈ ms, ∃ v : ℚ, mv.2 = some v ∧ -1 < v) :
    (∃ e, bestMethodReported ms = some e ∧ e ∈ ms ∧ e.2.isSome = true ∧
      ∀ v : ℚ, e.2 = some v → ∀ mv ∈ ms, ∀ w : ℚ, mv.2 = some w → w ≤ v) ∧
    bestMethodReported [(strLit "a", none), (strLit "b", some (-2 : ℚ))] =
      some (strLit "a", none) := by
  refine ⟨?_, by decide⟩
  obtain ⟨mv0, hmv0, v0, hv0, hv0gt⟩ := h
  cases ms with
  | nil => simp at hmv0
  | cons x xs =>
    refine ⟨pyMaxBy (fun kv : PyStr × Score => kv.2.getD (-1)) x xs, rfl,
      pyMaxBy_mem _ x xs, ?_, ?_⟩
    · cases he2 : (pyMaxBy (fun kv : PyStr × Score => kv.2.getD (-1)) x xs).2 with
      | some w => rfl
      | none =>
        exfalso
        have hge := pyMaxBy_ge (fun kv : PyStr × Score => kv.2.getD (-1)) x xs mv0 hmv0
        simp only [hv0, he2, Option.getD_some, Option.getD_none] at hge
        exact absurd hv0gt (not_lt.mpr hge)
    · intro v hev mv hmv w hw
      have hge := pyMaxBy_ge (fun kv : PyStr × Score => kv.2.getD (-1)) x xs mv hmv
      simp only [hw, hev, Option.getD_some] at hge
      exact hge

/-- Witness for C10: one property with a positive score and a null score. -/
theorem claim_C10_summary_best_method_witness :
    (∃ mv ∈ ([(strLit "RF", some (1 : ℚ)), (strLit "SVR", none)] : MethodScores),
      ∃ v : ℚ, mv.2 = some v ∧ -1 < v) ∧
    ((∃ e, bestMethodReported [(strLit "RF", some (1 : ℚ)), (strLit "SVR", none)] = some e ∧
      e ∈ ([(strLit "RF", some (1 : ℚ)), (strLit "SVR", none)] : MethodScores) ∧
      e.2.isSome = true ∧
      ∀ v : ℚ, e.2 = some v →
        ∀ mv ∈ ([(strLit "RF", some (1 : ℚ)), (strLit "SVR", none)] : MethodScores),
          ∀ w : ℚ, mv.2 = some w → w ≤ v) ∧
    bestMethodReported [(strLit "a", none), (strLit "b", some (-2 : ℚ))] =
      some (strLit "a", none)) :=
  ⟨⟨(strLit "RF", some (1 : ℚ)), by decide, 1, rfl, by decide⟩,
    claim_C10_summary_best_method [(strLit "RF", some (1 : ℚ)), (strLit "SVR", none)]
      ⟨(strLit "RF", some (1 : ℚ)), by decide, 1, rfl, by decide⟩⟩

/-! ### The worked scenario of the spec, as sanity checks -/

/-- Combining the two one-property inputs of the worked scenario yields the
expected overlay with the tagged derivative method appended. -/
theorem scenario_combine_pH :
    combine_results [(strLit "pH", [(strLit "RF", some (mkRat 91 100)), (strLit "SVR", none)])]
      [(strLit "pH", [(strLit "RF", some (mkRat 80 100))])] =
      [(strLit "pH", [(strLit "RF", some (mkRat 91 100)), (strLit "SVR", none),
        (strLit "RF_deriv", some (mkRat 80 100))])] := by decide

/-- Ranking the combined scenario puts the two scored methods first in
descending order and the null-scored method last. -/
theorem scenario_rank_pH :
    sortOneProperty [(strLit "RF", some (mkRat 91 100)), (strLit "SVR", none),
        (strLit "RF_deriv", some (mkRat 80 100))] =
      [(strLit "RF", some (mkRat 91 100)), (strLit "RF_deriv", some (mkRat 80 100)),
        (strLit "SVR", none)] := by decide
